import Mathlib

set_option maxHeartbeats 1000000

/- Shallow embedding of the schema dependency resolver implemented in
src/components/DataSchema.tsx (function getAllAttributes and its inner helper
addAttributeAndDependencies), together with the display-name override tables
of the same file. Machine substrate (JS Set with insertion order, object
spread) is modelled with ordered lists of records. -/

/-- Schema node, mirroring DataSchemaData as used by DataSchema.tsx: an
identity id, a display name (the field named attribute in the source), a
label, descriptive fields, and the stored dependency-edge id lists. -/
structure DataSchemaData where
  id : String
  attributeName : String
  label : String
  description : String
  required : Bool
  dataType : String
  requiredDependencies : List String
  conditionalDependencies : List String
  exclusiveConditionalDependencies : List String
  validValues : List String
  deriving Repr, DecidableEq

/-- The schema map `{ [id: string]: DataSchemaData }`: an association list from
attribute id to attribute, in insertion order (JS string-keyed objects
enumerate in insertion order). -/
def SchemaMap : Type := List (String × DataSchemaData)

/-- Lookup `dataSchemaMap[depId]`: first binding of the id, if any. -/
def lookupSchema (m : SchemaMap) (i : String) : Option DataSchemaData :=
  (List.find? (fun e => e.1 == i) m).map Prod.snd

/-- The values stored in the schema map. -/
def attrVals (m : SchemaMap) : List DataSchemaData :=
  List.map (fun e => e.2) m

/-- Modelled from the spec: getDataSchemaValidValues lives in the external
package htan/data-portal-schema, not under src/. Per the spec (section 3,
validValues edges) it resolves the enumerated valid values of an attribute
via lookup in the schema map, silently skipping ids that are not present. -/
def getDataSchemaValidValues (a : DataSchemaData) (m : SchemaMap) :
    List DataSchemaData :=
  a.validValues.filterMap (lookupSchema m)

/-- Modelled from the spec: findConditionalAttributes lives in the external
package htan/data-portal-schema, not under src/. Per the spec (sections 3 and
4.2, conditional-if reverse edges) it scans the whole map for attributes whose
conditional-dependency list references this node and returns their ids. -/
def findConditionalAttributes (a : DataSchemaData) (m : SchemaMap) :
    List String :=
  List.map (fun e => e.2.id)
    (List.filter (fun e => e.2.conditionalDependencies.contains a.id) m)

/-- The resolved record `{ ...attributeName, manifestName }` built at
DataSchema.tsx line 351: the source attribute with all of its fields, extended
with the single manifestName string. -/
structure ResolvedAttribute where
  attr : DataSchemaData
  manifestName : String
  deriving Repr, DecidableEq

/-- The seen check of DataSchema.tsx lines 352-356: scan the accumulated
records for one whose display name equals the display name of the candidate. -/
def seenName (acc : List ResolvedAttribute) (a : DataSchemaData) : Bool :=
  acc.any (fun r => r.attr.attributeName == a.attributeName)

/-- The dependency attributes of a node, resolved against the map, in the
fixed order of DataSchema.tsx lines 359-404: required dependencies,
conditional dependencies, exclusive conditional dependencies, valid-value
edges, then conditional-if reverse edges; ids absent from the map are
skipped. -/
def dependencyAttrs (m : SchemaMap) (a : DataSchemaData) : List DataSchemaData :=
  a.requiredDependencies.filterMap (lookupSchema m)
    ++ a.conditionalDependencies.filterMap (lookupSchema m)
    ++ a.exclusiveConditionalDependencies.filterMap (lookupSchema m)
    ++ getDataSchemaValidValues a m
    ++ (findConditionalAttributes a m).filterMap (lookupSchema m)

/-- Display names of the accumulated records. -/
def namesOf (acc : List ResolvedAttribute) : List String :=
  acc.map (fun r => r.attr.attributeName)

theorem lookupSchema_mem_attrVals {m : SchemaMap} {i : String}
    {d : DataSchemaData} (h : lookupSchema m i = some d) : d ∈ attrVals m := by
  unfold lookupSchema at h
  rcases Option.map_eq_some'.mp h with ⟨e, he, rfl⟩
  exact List.mem_map_of_mem _ (List.mem_of_find?_eq_some he)

theorem dependencyAttrs_mem_attrVals {m : SchemaMap} {a d : DataSchemaData}
    (h : d ∈ dependencyAttrs m a) : d ∈ attrVals m := by
  unfold dependencyAttrs at h
  simp only [List.mem_append, List.mem_filterMap] at h
  unfold getDataSchemaValidValues at h
  simp only [List.mem_filterMap] at h
  rcases h with ((((⟨_, _, hl⟩ | ⟨_, _, hl⟩) | ⟨_, _, hl⟩) | ⟨_, _, hl⟩) | ⟨_, _, hl⟩) <;>
    exact lookupSchema_mem_attrVals hl

/-- Universe of display names relevant to a traversal state: names of the map
values together with names pending on the worklist. -/
def nameUniverse (m : SchemaMap) (p : List (DataSchemaData × String)) :
    Finset String :=
  ((attrVals m).map (fun d => d.attributeName)).toFinset
    ∪ (p.map (fun e => e.1.attributeName)).toFinset

/-- Count of universe names not yet seen; first component of the termination
measure of the traversal. -/
def unseenCount (m : SchemaMap) (p : List (DataSchemaData × String))
    (acc : List ResolvedAttribute) : Nat :=
  (nameUniverse m p \ (namesOf acc).toFinset).card

theorem unseenCount_eq_of_seen (m : SchemaMap) (a : DataSchemaData)
    (mn : String) (p : List (DataSchemaData × String))
    (acc : List ResolvedAttribute) (h : seenName acc a = true) :
    unseenCount m p acc = unseenCount m ((a, mn) :: p) acc := by
  have hmem : a.attributeName ∈ (namesOf acc).toFinset := by
    unfold seenName at h
    rcases List.any_eq_true.mp h with ⟨r, hr, hbeq⟩
    simp only [List.mem_toFinset, namesOf, List.mem_map]
    exact ⟨r, hr, by simpa using hbeq⟩
  unfold unseenCount nameUniverse
  simp only [List.map_cons, List.toFinset_cons]
  rw [Finset.union_insert, Finset.insert_sdiff_of_mem _ hmem]

theorem unseenCount_lt_of_unseen (m : SchemaMap) (a : DataSchemaData)
    (mn : String) (p : List (DataSchemaData × String))
    (acc : List ResolvedAttribute) (h : seenName acc a = false) :
    unseenCount m ((dependencyAttrs m a).map (fun d => (d, mn)) ++ p)
        (acc ++ [⟨a, mn⟩])
      < unseenCount m ((a, mn) :: p) acc := by
  have hnot : a.attributeName ∉ (namesOf acc).toFinset := by
    intro hc
    simp only [List.mem_toFinset, namesOf, List.mem_map] at hc
    rcases hc with ⟨r, hr, heq⟩
    have : seenName acc a = true :=
      List.any_eq_true.mpr ⟨r, hr, by simpa using heq⟩
    simp [this] at h
  apply Finset.card_lt_card
  constructor
  · intro x hx
    simp only [unseenCount, nameUniverse, Finset.mem_sdiff, Finset.mem_union,
      List.mem_toFinset, List.mem_map, namesOf, List.map_append,
      List.toFinset_append, List.map_cons, List.toFinset_cons,
      Finset.mem_insert, List.map_map] at hx ⊢
    rcases hx with ⟨hin, hout⟩
    constructor
    · rcases hin with hm | hp
      · exact Or.inl hm
      · rcases hp with hd | hp
        · -- a name coming from the pushed dependency pairs is a map name
          left
          rcases hd with ⟨d', hd', hx'⟩
          exact ⟨d', dependencyAttrs_mem_attrVals hd', by simpa using hx'⟩
        · exact Or.inr (Or.inr hp)
    · intro hc
      exact hout (Or.inl hc)
  · intro hsub
    have hx : a.attributeName ∈
        nameUniverse m ((a, mn) :: p) \ (namesOf acc).toFinset := by
      rw [Finset.mem_sdiff]
      refine ⟨?_, hnot⟩
      simp [nameUniverse]
    have hx' := hsub hx
    rw [Finset.mem_sdiff] at hx'
    exact hx'.2 (by simp [namesOf])

/-- The traversal core of getAllAttributes (DataSchema.tsx lines 347-406),
phrased with an explicit worklist. The recursive source routine
addAttributeAndDependencies keeps a shared growing set of records; the pending
list here is exactly the stack of outstanding recursive calls (each entry an
attribute together with the manifestName argument of that call), popped in the
order the source performs them: the seen check happens at entry; an unseen
attribute is recorded first and its resolved dependencies are then pushed in
the fixed source order ahead of the remaining work, each paired with the same
manifestName, so the head of the worklist is always the next call the source
would execute and the record list evolves identically. -/
def resolveRec (m : SchemaMap) :
    List (DataSchemaData × String) → List ResolvedAttribute →
      List ResolvedAttribute
  | [], acc => acc
  | (a, mn) :: p, acc =>
    if seenName acc a then
      resolveRec m p acc
    else
      resolveRec m ((dependencyAttrs m a).map (fun d => (d, mn)) ++ p)
        (acc ++ [⟨a, mn⟩])
termination_by p acc => (unseenCount m p acc, p.length)
decreasing_by
· rename_i h
  have he := unseenCount_eq_of_seen m a mn p acc (by simpa using h)
  rw [he]
  exact Prod.Lex.right _ (by simp)
· rename_i h
  exact Prod.Lex.left _ _
    (unseenCount_lt_of_unseen m a mn p acc (by simpa using h))

/-- The inner routine addAttributeAndDependencies (DataSchema.tsx lines
347-406) as a state transformer: one outstanding call on the worklist. -/
def addAttributeAndDependencies (m : SchemaMap) (a : DataSchemaData)
    (manifestName : String) (acc : List ResolvedAttribute) :
    List ResolvedAttribute :=
  resolveRec m [(a, manifestName)] acc

/-- getAllAttributes (DataSchema.tsx lines 341-412): visit every root with its
own label as manifestName, sharing the record list across roots, and return
the records in insertion order. -/
def getAllAttributes (schemaData : List DataSchemaData) (m : SchemaMap) :
    List ResolvedAttribute :=
  schemaData.foldl (fun acc a => addAttributeAndDependencies m a a.label acc) []

theorem resolveRec_nil (m : SchemaMap) (acc : List ResolvedAttribute) :
    resolveRec m [] acc = acc := by
  rw [resolveRec]

theorem resolveRec_cons (m : SchemaMap) (a : DataSchemaData) (mn : String)
    (p : List (DataSchemaData × String)) (acc : List ResolvedAttribute) :
    resolveRec m ((a, mn) :: p) acc =
      if seenName acc a then resolveRec m p acc
      else
        resolveRec m ((dependencyAttrs m a).map (fun d => (d, mn)) ++ p)
          (acc ++ [⟨a, mn⟩]) := by
  rw [resolveRec]

theorem seenName_iff (acc : List ResolvedAttribute) (a : DataSchemaData) :
    seenName acc a = true ↔ a.attributeName ∈ namesOf acc := by
  unfold seenName namesOf
  rw [List.any_eq_true]
  constructor
  · rintro ⟨r, hr, hbeq⟩
    exact List.mem_map.mpr ⟨r, hr, by simpa using hbeq.symm⟩
  · intro h
    rcases List.mem_map.mp h with ⟨r, hr, heq⟩
    exact ⟨r, hr, by simpa using heq⟩

theorem resolveRec_append (m : SchemaMap)
    (p q : List (DataSchemaData × String)) (acc : List ResolvedAttribute) :
    resolveRec m (p ++ q) acc = resolveRec m q (resolveRec m p acc) := by
  induction p, acc using resolveRec.induct m with
  | case1 acc => rw [List.nil_append, resolveRec_nil]
  | case2 a mn p acc h ih =>
    rw [List.cons_append, resolveRec_cons, if_pos h, ih, resolveRec_cons,
      if_pos h]
  | case3 a mn p acc h ih =>
    rw [List.cons_append, resolveRec_cons, if_neg h, resolveRec_cons,
      if_neg h, ← List.append_assoc, ih]

theorem resolveRec_prefix (m : SchemaMap)
    (p : List (DataSchemaData × String)) (acc : List ResolvedAttribute) :
    ∃ ext, resolveRec m p acc = acc ++ ext := by
  induction p, acc using resolveRec.induct m with
  | case1 acc => exact ⟨[], by rw [resolveRec_nil, List.append_nil]⟩
  | case2 a mn p acc h ih =>
    rw [resolveRec_cons, if_pos h]
    exact ih
  | case3 a mn p acc h ih =>
    rcases ih with ⟨ext, hext⟩
    rw [resolveRec_cons, if_neg h, hext, List.append_assoc]
    exact ⟨_, rfl⟩

theorem mem_resolveRec_of_mem_acc (m : SchemaMap)
    (p : List (DataSchemaData × String)) (acc : List ResolvedAttribute)
    {r : ResolvedAttribute} (hr : r ∈ acc) : r ∈ resolveRec m p acc := by
  rcases resolveRec_prefix m p acc with ⟨ext, hext⟩
  rw [hext]
  exact List.mem_append_left _ hr

theorem namesOf_append (acc l : List ResolvedAttribute) :
    namesOf (acc ++ l) = namesOf acc ++ namesOf l := by
  unfold namesOf
  exact List.map_append _ _ _

theorem name_mem_resolveRec_of_mem (m : SchemaMap)
    (p : List (DataSchemaData × String)) (acc : List ResolvedAttribute)
    {x : String} (hx : x ∈ namesOf acc) :
    x ∈ namesOf (resolveRec m p acc) := by
  rcases resolveRec_prefix m p acc with ⟨ext, hext⟩
  rw [hext, namesOf_append]
  exact List.mem_append_left _ hx

theorem namesOf_nodup_resolveRec (m : SchemaMap)
    (p : List (DataSchemaData × String)) (acc : List ResolvedAttribute)
    (h : (namesOf acc).Nodup) : (namesOf (resolveRec m p acc)).Nodup := by
  induction p, acc using resolveRec.induct m with
  | case1 acc => rw [resolveRec_nil]; exact h
  | case2 a mn p acc hs ih => rw [resolveRec_cons, if_pos hs]; exact ih h
  | case3 a mn p acc hs ih =>
    rw [resolveRec_cons, if_neg hs]
    refine ih ?_
    rw [namesOf_append]
    refine List.Nodup.append h (by simp [namesOf]) ?_
    intro x hx hx'
    have hxa : x = a.attributeName := by
      simpa [namesOf] using hx'
    subst hxa
    exact hs ((seenName_iff acc a).mpr hx)

theorem pending_name_mem_resolveRec (m : SchemaMap)
    (p : List (DataSchemaData × String)) (acc : List ResolvedAttribute)
    {b : DataSchemaData} {mnb : String} (hb : (b, mnb) ∈ p) :
    b.attributeName ∈ namesOf (resolveRec m p acc) := by
  induction p, acc using resolveRec.induct m with
  | case1 acc => cases hb
  | case2 a mn p acc hs ih =>
    rw [resolveRec_cons, if_pos hs]
    rcases List.mem_cons.mp hb with hhd | htl
    · have : b.attributeName ∈ namesOf acc := by
        have hba : b = a := congrArg Prod.fst hhd
        subst hba
        exact (seenName_iff acc b).mp hs
      exact name_mem_resolveRec_of_mem m p acc this
    · exact ih htl
  | case3 a mn p acc hs ih =>
    rw [resolveRec_cons, if_neg hs]
    rcases List.mem_cons.mp hb with hhd | htl
    · have hba : b = a := congrArg Prod.fst hhd
      subst hba
      refine name_mem_resolveRec_of_mem m _ _ ?_
      simp [namesOf]
    · exact ih (List.mem_append_right _ htl)

/-- Worklist invariant: every dependency of an already recorded attribute is
either already seen by name or still pending. -/
def ClosedOrPending (m : SchemaMap) (p : List (DataSchemaData × String))
    (acc : List ResolvedAttribute) : Prop :=
  ∀ r ∈ acc, ∀ d ∈ dependencyAttrs m r.attr,
    d.attributeName ∈ namesOf acc ∨ d ∈ p.map Prod.fst

theorem resolveRec_closed (m : SchemaMap)
    (p : List (DataSchemaData × String)) (acc : List ResolvedAttribute)
    (hinv : ClosedOrPending m p acc) :
    ∀ r ∈ resolveRec m p acc, ∀ d ∈ dependencyAttrs m r.attr,
      d.attributeName ∈ namesOf (resolveRec m p acc) := by
  induction p, acc using resolveRec.induct m with
  | case1 acc =>
    intro r hr d hd
    rw [resolveRec_nil] at hr ⊢
    rcases hinv r hr d hd with hn | hp
    · exact hn
    · cases hp
  | case2 a mn p acc hs ih =>
    rw [resolveRec_cons, if_pos hs]
    refine ih ?_
    intro r hr d hd
    rcases hinv r hr d hd with hn | hp
    · exact Or.inl hn
    · rcases List.mem_cons.mp hp with hda | hdp
      · subst hda
        exact Or.inl ((seenName_iff acc d).mp hs)
      · exact Or.inr hdp
  | case3 a mn p acc hs ih =>
    rw [resolveRec_cons, if_neg hs]
    refine ih ?_
    intro r hr d hd
    rcases List.mem_append.mp hr with hracc | hrnew
    · rcases hinv r hracc d hd with hn | hp
      · exact Or.inl (by rw [namesOf_append]; exact List.mem_append_left _ hn)
      · rcases List.mem_cons.mp hp with hda | hdp
        · subst hda
          refine Or.inl ?_
          rw [namesOf_append]
          exact List.mem_append_right _ (by simp [namesOf])
        · exact Or.inr (by rw [List.map_append]; exact List.mem_append_right _ hdp)
    · have hra : r = ⟨a, mn⟩ := by simpa using hrnew
      subst hra
      refine Or.inr ?_
      rw [List.map_append]
      refine List.mem_append_left _ ?_
      rw [List.map_map]
      simpa using hd

theorem resolveRec_sound (m : SchemaMap)
    (p : List (DataSchemaData × String)) (acc : List ResolvedAttribute) :
    ∀ r ∈ resolveRec m p acc,
      r ∈ acc ∨ r.attr ∈ p.map Prod.fst ∨ r.attr ∈ attrVals m := by
  induction p, acc using resolveRec.induct m with
  | case1 acc =>
    intro r hr
    rw [resolveRec_nil] at hr
    exact Or.inl hr
  | case2 a mn p acc hs ih =>
    rw [resolveRec_cons, if_pos hs]
    intro r hr
    rcases ih r hr with h | h | h
    · exact Or.inl h
    · exact Or.inr (Or.inl (List.mem_cons_of_mem _ h))
    · exact Or.inr (Or.inr h)
  | case3 a mn p acc hs ih =>
    rw [resolveRec_cons, if_neg hs]
    intro r hr
    rcases ih r hr with h | h | h
    · rcases List.mem_append.mp h with hacc | hnew
      · exact Or.inl hacc
      · have : r = ⟨a, mn⟩ := by simpa using hnew
        subst this
        exact Or.inr (Or.inl (by simp))
    · rw [List.map_append] at h
      rcases List.mem_append.mp h with hdep | hp
      · rw [List.map_map] at hdep
        rcases List.mem_map.mp hdep with ⟨d, hd, hdr⟩
        have : r.attr = d := by simpa using hdr.symm
        rw [this]
        exact Or.inr (Or.inr (dependencyAttrs_mem_attrVals hd))
      · exact Or.inr (Or.inl (List.mem_cons_of_mem _ hp))
    · exact Or.inr (Or.inr h)

theorem resolveRec_manifest_sound (m : SchemaMap)
    (p : List (DataSchemaData × String)) (acc : List ResolvedAttribute) :
    ∀ r ∈ resolveRec m p acc,
      r ∈ acc ∨ r.manifestName ∈ p.map Prod.snd := by
  induction p, acc using resolveRec.induct m with
  | case1 acc =>
    intro r hr
    rw [resolveRec_nil] at hr
    exact Or.inl hr
  | case2 a mn p acc hs ih =>
    rw [resolveRec_cons, if_pos hs]
    intro r hr
    rcases ih r hr with h | h
    · exact Or.inl h
    · exact Or.inr (List.mem_cons_of_mem _ h)
  | case3 a mn p acc hs ih =>
    rw [resolveRec_cons, if_neg hs]
    intro r hr
    rcases ih r hr with h | h
    · rcases List.mem_append.mp h with hacc | hnew
      · exact Or.inl hacc
      · have : r = ⟨a, mn⟩ := by simpa using hnew
        subst this
        exact Or.inr (by simp)
    · rw [List.map_append] at h
      rcases List.mem_append.mp h with hdep | hp
      · rw [List.map_map] at hdep
        rcases List.mem_map.mp hdep with ⟨d, _, hdr⟩
        have : r.manifestName = mn := by simpa using hdr.symm
        rw [this]
        exact Or.inr (by simp)
      · exact Or.inr (List.mem_cons_of_mem _ hp)

theorem resolveRec_all_seen (m : SchemaMap)
    (p : List (DataSchemaData × String)) (acc : List ResolvedAttribute)
    (h : ∀ e ∈ p, e.1.attributeName ∈ namesOf acc) :
    resolveRec m p acc = acc := by
  induction p with
  | nil => exact resolveRec_nil m acc
  | cons e p ih =>
    obtain ⟨a, mn⟩ := e
    have hs : seenName acc a = true :=
      (seenName_iff acc a).mpr (h (a, mn) (List.mem_cons_self _ _))
    rw [resolveRec_cons, if_pos hs]
    exact ih (fun e he => h e (List.mem_cons_of_mem _ he))

theorem getAllAttributes_eq_resolveRec (schemaData : List DataSchemaData)
    (m : SchemaMap) :
    getAllAttributes schemaData m =
      resolveRec m (schemaData.map (fun a => (a, a.label))) [] := by
  unfold getAllAttributes addAttributeAndDependencies
  generalize ([] : List ResolvedAttribute) = acc
  induction schemaData generalizing acc with
  | nil => rw [List.map_nil, List.foldl_nil, resolveRec_nil]
  | cons a l ih =>
    rw [List.map_cons, List.foldl_cons, ih]
    have : ((a, a.label) :: l.map (fun a => (a, a.label))) =
        [(a, a.label)] ++ l.map (fun a => (a, a.label)) := rfl
    rw [this, resolveRec_append]

/-- Reachability in the schema graph: a chain of resolved dependency edges of
any of the five kinds, starting at a root. -/
inductive Reachable (m : SchemaMap) (roots : List DataSchemaData) :
    DataSchemaData → Prop
  | root {a : DataSchemaData} : a ∈ roots → Reachable m roots a
  | step {a b : DataSchemaData} : Reachable m roots a →
      b ∈ dependencyAttrs m a → Reachable m roots b

/-- Display names identify attributes among the roots and the map values. -/
def NamesInjective (roots : List DataSchemaData) (m : SchemaMap) : Prop :=
  ∀ a ∈ roots ++ attrVals m, ∀ b ∈ roots ++ attrVals m,
    a.attributeName = b.attributeName → a = b

theorem reachable_mem {m : SchemaMap} {roots : List DataSchemaData}
    {a : DataSchemaData} (h : Reachable m roots a) :
    a ∈ roots ++ attrVals m := by
  induction h with
  | root ha => exact List.mem_append_left _ ha
  | step _ hb _ => exact List.mem_append_right _ (dependencyAttrs_mem_attrVals hb)

theorem getAllAttributes_sound (roots : List DataSchemaData) (m : SchemaMap) :
    ∀ r ∈ getAllAttributes roots m, r.attr ∈ roots ++ attrVals m := by
  rw [getAllAttributes_eq_resolveRec]
  intro r hr
  rcases resolveRec_sound m _ [] r hr with h | h | h
  · cases h
  · refine List.mem_append_left _ ?_
    rw [List.map_map] at h
    simpa using h
  · exact List.mem_append_right _ h

theorem getAllAttributes_names_nodup (roots : List DataSchemaData)
    (m : SchemaMap) : (namesOf (getAllAttributes roots m)).Nodup := by
  rw [getAllAttributes_eq_resolveRec]
  exact namesOf_nodup_resolveRec m _ [] (by simp [namesOf])

theorem getAllAttributes_complete_name {roots : List DataSchemaData}
    {m : SchemaMap} (hinj : NamesInjective roots m) {a : DataSchemaData}
    (h : Reachable m roots a) :
    a.attributeName ∈ namesOf (getAllAttributes roots m) := by
  induction h with
  | root ha =>
    rw [getAllAttributes_eq_resolveRec]
    exact pending_name_mem_resolveRec m _ []
      (List.mem_map.mpr ⟨_, ha, rfl⟩)
  | step hra hb ih =>
    rename_i x b
    rcases List.mem_map.mp ih with ⟨r, hr, hname⟩
    have hxattr : r.attr = x :=
      hinj r.attr (getAllAttributes_sound roots m r hr) x
        (reachable_mem hra) hname
    rw [getAllAttributes_eq_resolveRec] at hr ⊢
    exact resolveRec_closed m _ [] (fun r hr => absurd hr (by simp)) r hr b
      (by rw [hxattr]; exact hb)

theorem getAllAttributes_exactly_once {roots : List DataSchemaData}
    {m : SchemaMap} (hinj : NamesInjective roots m) {a : DataSchemaData}
    (h : Reachable m roots a) :
    ((getAllAttributes roots m).map (fun r => r.attr)).count a = 1 := by
  have hname := getAllAttributes_complete_name hinj h
  rcases List.mem_map.mp hname with ⟨r, hr, hrname⟩
  have hra : r.attr = a :=
    hinj r.attr (getAllAttributes_sound roots m r hr) a (reachable_mem h) hrname
  have hmem : a ∈ (getAllAttributes roots m).map (fun r => r.attr) :=
    List.mem_map.mpr ⟨r, hr, hra⟩
  have hnd : ((getAllAttributes roots m).map (fun r => r.attr)).Nodup := by
    have := getAllAttributes_names_nodup roots m
    unfold namesOf at this
    rw [show ((getAllAttributes roots m).map
        (fun r => r.attr.attributeName)) = ((getAllAttributes roots m).map
        (fun r => r.attr)).map (fun d => d.attributeName) by
      rw [List.map_map]; rfl] at this
    exact List.Nodup.of_map _ this
  exact List.count_eq_one_of_mem hnd hmem

theorem filter_attr_eq_singleton {l : List ResolvedAttribute}
    (hnd : (namesOf l).Nodup) {rc : ResolvedAttribute} (hrc : rc ∈ l)
    {c : DataSchemaData} (hattr : rc.attr = c) :
    l.filter (fun r => r.attr == c) = [rc] := by
  induction l with
  | nil => cases hrc
  | cons x l ih =>
    simp only [namesOf, List.map_cons, List.nodup_cons] at hnd
    rcases List.mem_cons.mp hrc with hx | hmem
    · subst hx
      rw [List.filter_cons_of_pos (by simp [hattr])]
      have hfl : l.filter (fun r => r.attr == c) = [] := by
        rw [List.filter_eq_nil_iff]
        intro r hr
        simp only [beq_iff_eq]
        intro hrc'
        exact hnd.1 (List.mem_map.mpr ⟨r, hr, by rw [hrc', ← hattr]⟩)
      rw [hfl]
    · have hxf : (x.attr == c) = false := by
        rw [beq_eq_false_iff_ne]
        intro hxc
        exact hnd.1 (List.mem_map.mpr ⟨rc, hmem, by rw [hattr, ← hxc]⟩)
      rw [List.filter_cons, hxf]
      simp only [Bool.false_eq_true, if_false]
      exact ih (by simp only [namesOf]; exact hnd.2) hmem

/-- LABEL_OVERRIDES (DataSchema.tsx lines 39-44): legacy label names mapped
to their current names, applied at presentation time only. -/
def LABEL_OVERRIDES : List (String × String) :=
  [("BulkWESLevel1", "BulkDNALevel1"),
   ("BulkWESLevel2", "BulkDNALevel2"),
   ("BulkWESLevel3", "BulkDNALevel3"),
   ("ImagingLevel3Segmentation", "ImagingLevel3")]

/-- ATTRIBUTE_OVERRIDES (DataSchema.tsx lines 46-51): legacy display names
mapped to their current names, applied at presentation time only. -/
def ATTRIBUTE_OVERRIDES : List (String × String) :=
  [("Bulk WES Level 1", "Bulk DNA Level 1"),
   ("Bulk WES Level 2", "Bulk DNA Level 2"),
   ("Bulk WES Level 3", "Bulk DNA Level 3"),
   ("Imaging Level 3 Segmentation", "Imaging Level 3")]

/-- The display expression `ATTRIBUTE_OVERRIDES[x] || x` of DataSchema.tsx
lines 108 and 140: the overridden name when the table has one, otherwise the
raw name. -/
def displayAttribute (s : String) : String :=
  ((List.find? (fun e => e.1 == s) ATTRIBUTE_OVERRIDES).map Prod.snd).getD s

/-- Record shape of the spec resolver variant: provenance kept as a set of
manifest names. -/
structure SpecResolvedAttribute where
  attr : DataSchemaData
  manifestNames : List String
  deriving Repr, DecidableEq

/-- Modelled from the spec: the visit routine of spec section 4.1 step 3 read
literally. A seen attribute is not re-added but the manifestName is merged
into its provenance set (step a); regardless of seen or unseen the routine
recurses into every dependency edge kind with the same manifestName (step c).
Read this way the routine need not terminate on cyclic schemas, so the
recursion depth is bounded by explicit fuel; it is only evaluated on acyclic
inputs with ample fuel. -/
def specVisit (m : SchemaMap) :
    Nat → DataSchemaData → String → List SpecResolvedAttribute →
      List SpecResolvedAttribute
  | 0, _, _, st => st
  | fuel + 1, a, mn, st =>
    let st' :=
      if st.any (fun r => r.attr.attributeName == a.attributeName) then
        st.map (fun r =>
          if r.attr.attributeName == a.attributeName
              && !(r.manifestNames.contains mn) then
            { r with manifestNames := r.manifestNames ++ [mn] }
          else r)
      else st ++ [⟨a, [mn]⟩]
    (dependencyAttrs m a).foldl (fun s d => specVisit m fuel d mn s) st'

/-- Modelled from the spec: resolveClosure of spec section 4.1, visiting each
root with its own label as manifestName. -/
def resolveClosureSpec (m : SchemaMap) (fuel : Nat)
    (roots : List DataSchemaData) : List SpecResolvedAttribute :=
  roots.foldl (fun st a => specVisit m fuel a a.label st) []

def cycleA : DataSchemaData :=
  ⟨"bts:A", "A", "Alab", "", false, "", [], ["bts:B"], [], []⟩

def cycleB : DataSchemaData :=
  ⟨"bts:B", "B", "Blab", "", false, "", [], ["bts:A"], [], []⟩

def cycleMap : SchemaMap := [("bts:A", cycleA), ("bts:B", cycleB)]

/-- C4: cycle safety and termination. The traversal is a total function of
this development (its termination is the well-founded measure of resolveRec,
which decreases because the seen check precedes any recursive descent); on the
two-node conditional cycle, resolving from A yields exactly the records of A
and B, each once, with no duplicates. -/
theorem c4_cycle_safety :
    getAllAttributes [cycleA] cycleMap = [⟨cycleA, "Alab"⟩, ⟨cycleB, "Alab"⟩] ∧
    ((getAllAttributes [cycleA] cycleMap).map (fun r => r.attr)).Nodup := by
  have h : getAllAttributes [cycleA] cycleMap =
      [⟨cycleA, "Alab"⟩, ⟨cycleB, "Alab"⟩] := by
    simp [getAllAttributes, addAttributeAndDependencies, resolveRec_cons,
      resolveRec_nil, seenName, dependencyAttrs, lookupSchema,
      getDataSchemaValidValues, findConditionalAttributes, cycleMap, cycleA,
      cycleB]
  exact ⟨h, by rw [h]; decide⟩

/-- C5: dangling-edge tolerance. A dependency id absent from the schema map is
skipped (no error is possible, the resolver is total); when the attribute has
a dangling required dependency and no resolvable dependency of any kind, the
result is the singleton of the attribute itself. -/
theorem c5_dangling_tolerance (m : SchemaMap) (a : DataSchemaData)
    (d : String) (hd : d ∈ a.requiredDependencies)
    (hnone : lookupSchema m d = none)
    (hdeps : dependencyAttrs m a = []) :
    getAllAttributes [a] m = [⟨a, a.label⟩] := by
  rw [getAllAttributes_eq_resolveRec, List.map_cons, List.map_nil,
    resolveRec_cons, if_neg (by simp [seenName]), hdeps]
  simp [resolveRec_nil]

def danglingA : DataSchemaData :=
  ⟨"bts:D", "D", "Dlab", "", false, "", ["bts:ghost"], [], [], []⟩

def danglingMap : SchemaMap := []

theorem c5_witness :
    getAllAttributes [danglingA] danglingMap = [⟨danglingA, "Dlab"⟩] :=
  c5_dangling_tolerance danglingMap danglingA "bts:ghost" (by decide)
    (by decide) (by decide)

/-- C6: determinism. getAllAttributes is a pure function of its two
arguments; two calls with identical inputs return identical record sequences,
manifest annotations and order included. -/
theorem c6_determinism (roots1 roots2 : List DataSchemaData)
    (m1 m2 : SchemaMap) (hr : roots1 = roots2) (hm : m1 = m2) :
    getAllAttributes roots1 m1 = getAllAttributes roots2 m2 := by
  rw [hr, hm]

def detA : DataSchemaData :=
  ⟨"bts:E", "E", "Elab", "", false, "", [], [], [], []⟩

def detMap : SchemaMap := [("bts:E", detA)]

theorem c6_witness :
    getAllAttributes [detA] detMap = getAllAttributes [detA] detMap :=
  c6_determinism [detA] [detA] detMap detMap rfl rfl

/-- C7: self-reference. An attribute listing its own id among its dependency
lists does not recurse forever (the second visit is stopped by the seen
check); when itself is its only resolvable dependency, the result is the
singleton of the attribute. -/
theorem c7_self_reference (m : SchemaMap) (a : DataSchemaData)
    (hself : a.id ∈ a.requiredDependencies ++ a.conditionalDependencies
      ++ a.exclusiveConditionalDependencies ++ a.validValues)
    (honly : ∀ d ∈ dependencyAttrs m a, d = a) :
    getAllAttributes [a] m = [⟨a, a.label⟩] := by
  rw [getAllAttributes_eq_resolveRec, List.map_cons, List.map_nil,
    resolveRec_cons, if_neg (by simp [seenName])]
  rw [List.append_nil, List.nil_append]
  refine resolveRec_all_seen m _ _ ?_
  intro e he
  rcases List.mem_map.mp he with ⟨d, hd, hde⟩
  have hda := honly d hd
  rw [← hde]
  simp [namesOf, hda]

def selfA : DataSchemaData :=
  ⟨"bts:S", "S", "Slab", "", false, "", ["bts:S"], [], [], []⟩

def selfMap : SchemaMap := [("bts:S", selfA)]

theorem c7_witness :
    getAllAttributes [selfA] selfMap = [⟨selfA, "Slab"⟩] :=
  c7_self_reference selfMap selfA (by decide) (by decide)

/-- C9: frame. Every output record is a source attribute (a root or a value
of the map) carried with all of its fields unchanged, extended only with a
manifestName that is the label of one of the roots; the schema map and the
roots are never altered, the resolver being a pure function in this
development. -/
theorem c9_frame (roots : List DataSchemaData) (m : SchemaMap)
    (r : ResolvedAttribute) (hr : r ∈ getAllAttributes roots m) :
    (r.attr ∈ roots ∨ r.attr ∈ attrVals m) ∧
      r.manifestName ∈ roots.map (fun a => a.label) := by
  constructor
  · rcases List.mem_append.mp (getAllAttributes_sound roots m r hr) with h | h
    · exact Or.inl h
    · exact Or.inr h
  · rw [getAllAttributes_eq_resolveRec] at hr
    rcases resolveRec_manifest_sound m _ [] r hr with h | h
    · cases h
    · rw [List.map_map] at h
      simpa using h

def frameA : DataSchemaData :=
  ⟨"bts:F", "F", "Flab", "", false, "", [], [], [], []⟩

def frameMap : SchemaMap := [("bts:F", frameA)]

theorem c9_witness :
    ((⟨frameA, "Flab"⟩ : ResolvedAttribute).attr ∈ [frameA] ∨
      (⟨frameA, "Flab"⟩ : ResolvedAttribute).attr ∈ attrVals frameMap) ∧
    (⟨frameA, "Flab"⟩ : ResolvedAttribute).manifestName ∈
      [frameA].map (fun a => a.label) := by
  refine c9_frame [frameA] frameMap ⟨frameA, "Flab"⟩ ?_
  have h : getAllAttributes [frameA] frameMap = [⟨frameA, "Flab"⟩] := by
    simp [getAllAttributes, addAttributeAndDependencies, resolveRec_cons,
      resolveRec_nil, seenName, dependencyAttrs, lookupSchema,
      getDataSchemaValidValues, findConditionalAttributes, frameMap, frameA]
  rw [h]
  simp

theorem namesInjective_sub {roots roots' : List DataSchemaData}
    {m : SchemaMap} (hsub : ∀ a ∈ roots', a ∈ roots)
    (hinj : NamesInjective roots m) : NamesInjective roots' m := by
  intro a ha b hb hab
  refine hinj a ?_ b ?_ hab
  · rcases List.mem_append.mp ha with h | h
    · exact List.mem_append_left _ (hsub a h)
    · exact List.mem_append_right _ h
  · rcases List.mem_append.mp hb with h | h
    · exact List.mem_append_left _ (hsub b h)
    · exact List.mem_append_right _ h

def provR1 : DataSchemaData :=
  ⟨"bts:R1", "R1", "R1lab", "", false, "", ["bts:C"], [], [], []⟩

def provR2 : DataSchemaData :=
  ⟨"bts:R2", "R2", "R2lab", "", false, "", ["bts:C"], [], [], []⟩

def provC : DataSchemaData :=
  ⟨"bts:C", "C", "Clab", "", false, "", [], [], [], []⟩

def provMap : SchemaMap :=
  [("bts:R1", provR1), ("bts:R2", provR2), ("bts:C", provC)]

/-- C1 counterexample: roots R1 and R2 both require attribute C, so both
transitively depend on it, yet the single record for C carries only the
manifest name of R1; the two root labels differ, so the record does not list
the manifest names of both roots as the claim states. -/
theorem c1_counterexample :
    Reachable provMap [provR1] provC ∧ Reachable provMap [provR2] provC ∧
    ((getAllAttributes [provR1, provR2] provMap).filter
        (fun r => r.attr == provC)).map (fun r => r.manifestName)
      = ["R1lab"] ∧
    (provR1.label == provR2.label) = false := by
  refine ⟨@Reachable.step provMap [provR1] provR1 provC
      (Reachable.root (by simp)) (by decide),
    @Reachable.step provMap [provR2] provR2 provC
      (Reachable.root (by simp)) (by decide), ?_, by decide⟩
  have h : getAllAttributes [provR1, provR2] provMap =
      [⟨provR1, "R1lab"⟩, ⟨provC, "R1lab"⟩, ⟨provR2, "R2lab"⟩] := by
    simp [getAllAttributes, addAttributeAndDependencies, resolveRec_cons,
      resolveRec_nil, seenName, dependencyAttrs, lookupSchema,
      getDataSchemaValidValues, findConditionalAttributes, provMap, provR1,
      provR2, provC]
  rw [h]
  decide

/-- C1 amended: for roots R1 then R2 that both transitively depend on C, with
display names identifying attributes, the output holds exactly one record for
C, and that record carries only the manifest name of R1, the first root whose
traversal discovers C; the manifest name of R2 is not merged in. -/
theorem c1_amended (m : SchemaMap) (r1 r2 c : DataSchemaData)
    (hinj : NamesInjective [r1, r2] m)
    (h1 : Reachable m [r1] c) (h2 : Reachable m [r2] c) :
    (getAllAttributes [r1, r2] m).filter (fun r => r.attr == c)
      = [⟨c, r1.label⟩] := by
  have hinj1 : NamesInjective [r1] m :=
    namesInjective_sub (by intro a ha; simp at ha; simp [ha]) hinj
  have hname1 := getAllAttributes_complete_name hinj1 h1
  rcases List.mem_map.mp hname1 with ⟨rc, hrc, hrcname⟩
  have hrcattr : rc.attr = c := by
    refine hinj rc.attr ?_ c ?_ hrcname
    · have h := getAllAttributes_sound [r1] m rc hrc
      simp only [List.mem_append, List.mem_cons, List.not_mem_nil,
        or_false] at h ⊢
      tauto
    · have h := reachable_mem h1
      simp only [List.mem_append, List.mem_cons, List.not_mem_nil,
        or_false] at h ⊢
      tauto
  have hrcmn : rc.manifestName = r1.label := by
    have hrc' := hrc
    rw [getAllAttributes_eq_resolveRec] at hrc'
    rcases resolveRec_manifest_sound m _ [] rc hrc' with h | h
    · cases h
    · simpa using h
  have hrceq : rc = ⟨c, r1.label⟩ := by
    obtain ⟨rattr, rmn⟩ := rc
    simp only at hrcattr hrcmn
    rw [hrcattr, hrcmn]
  have hsplit : getAllAttributes [r1, r2] m =
      resolveRec m [(r2, r2.label)] (getAllAttributes [r1] m) := by
    rw [getAllAttributes_eq_resolveRec, getAllAttributes_eq_resolveRec]
    exact resolveRec_append m [(r1, r1.label)] [(r2, r2.label)] []
  have hrcfin : rc ∈ getAllAttributes [r1, r2] m := by
    rw [hsplit]
    exact mem_resolveRec_of_mem_acc m _ _ hrc
  have hfil := filter_attr_eq_singleton
    (getAllAttributes_names_nodup [r1, r2] m) hrcfin hrcattr
  rw [hfil, hrceq]

theorem c1_amended_witness :
    (getAllAttributes [provR1, provR2] provMap).filter
        (fun r => r.attr == provC) = [⟨provC, provR1.label⟩] :=
  c1_amended provMap provR1 provR2 provC
    (by unfold NamesInjective; decide)
    (@Reachable.step provMap [provR1] provR1 provC
      (Reachable.root (by simp)) (by decide))
    (@Reachable.step provMap [provR2] provR2 provC
      (Reachable.root (by simp)) (by decide))

def shadowA : DataSchemaData :=
  ⟨"bts:A2", "N2", "A2lab", "", false, "", [], [], [], []⟩

def shadowB : DataSchemaData :=
  ⟨"bts:B2", "N2", "B2lab", "", false, "", ["bts:C2"], [], [], []⟩

def shadowC : DataSchemaData :=
  ⟨"bts:C2", "C2", "C2lab", "", false, "", [], [], [], []⟩

def shadowMap : SchemaMap :=
  [("bts:A2", shadowA), ("bts:B2", shadowB), ("bts:C2", shadowC)]

/-- C2 counterexample: root B2 shares its display name with the already
visited root A2; the code does not recurse into the dependencies of a seen
attribute, so C2, required by B2, is absent from the code output, while the
spec visit of section 4.1, which recurses into every edge kind regardless of
the seen check, surfaces C2. -/
theorem c2_counterexample :
    (getAllAttributes [shadowA, shadowB] shadowMap).all
        (fun r => r.attr.id != "bts:C2") = true ∧
    ((resolveClosureSpec shadowMap 5 [shadowA, shadowB]).map
        (fun r => r.attr.id)).contains "bts:C2" = true := by
  have h : getAllAttributes [shadowA, shadowB] shadowMap
      = [⟨shadowA, "A2lab"⟩] := by
    simp [getAllAttributes, addAttributeAndDependencies, resolveRec_cons,
      resolveRec_nil, seenName, dependencyAttrs, lookupSchema,
      getDataSchemaValidValues, findConditionalAttributes, shadowMap,
      shadowA, shadowB, shadowC]
  constructor
  · rw [h]
    decide
  · decide

/-- C2 amended: the traversal recurses into the five dependency edge kinds,
in the fixed order required, conditional, exclusive conditional, valid
values, conditional-if, passing the caller manifestName unchanged, only when
the attribute display name is not yet seen; an already seen attribute is
skipped without any recursion; and the originating root label propagates down
the whole subtree: every output record carries the label of one of the roots
as its manifestName. -/
theorem c2_amended (m : SchemaMap) (a : DataSchemaData) (mn : String)
    (p : List (DataSchemaData × String)) (acc : List ResolvedAttribute) :
    (seenName acc a = true →
      resolveRec m ((a, mn) :: p) acc = resolveRec m p acc) ∧
    (seenName acc a = false →
      resolveRec m ((a, mn) :: p) acc =
        resolveRec m
          ((a.requiredDependencies.filterMap (lookupSchema m)
              ++ a.conditionalDependencies.filterMap (lookupSchema m)
              ++ a.exclusiveConditionalDependencies.filterMap (lookupSchema m)
              ++ getDataSchemaValidValues a m
              ++ (findConditionalAttributes a m).filterMap
                  (lookupSchema m)).map (fun d => (d, mn)) ++ p)
          (acc ++ [⟨a, mn⟩])) ∧
    (∀ roots : List DataSchemaData, ∀ r ∈ getAllAttributes roots m,
      r.manifestName ∈ roots.map (fun x => x.label)) := by
  refine ⟨?_, ?_, ?_⟩
  · intro hs
    rw [resolveRec_cons, if_pos hs]
  · intro hs
    rw [resolveRec_cons, if_neg (by simp [hs])]
    rfl
  · intro roots r hr
    rw [getAllAttributes_eq_resolveRec] at hr
    rcases resolveRec_manifest_sound m _ [] r hr with h | h
    · cases h
    · rw [List.map_map] at h
      simpa using h

def stepA : DataSchemaData :=
  ⟨"bts:W2", "W2", "W2lab", "", false, "", [], [], [], []⟩

def stepMap : SchemaMap := []

theorem c2_amended_witness :
    resolveRec stepMap [(stepA, "x")] [⟨stepA, "y"⟩]
      = resolveRec stepMap [] [⟨stepA, "y"⟩] :=
  (c2_amended stepMap stepA "x" [] [⟨stepA, "y"⟩]).1 (by decide)

def colX : DataSchemaData :=
  ⟨"bts:X3", "N3", "X3lab", "", false, "", [], [], [], []⟩

def colY : DataSchemaData :=
  ⟨"bts:Y3", "N3", "Y3lab", "", false, "", ["bts:Z3"], [], [], []⟩

def colZ : DataSchemaData :=
  ⟨"bts:Z3", "Z3", "Z3lab", "", false, "", [], [], [], []⟩

def colMap : SchemaMap :=
  [("bts:X3", colX), ("bts:Y3", colY), ("bts:Z3", colZ)]

/-- C3 counterexample: Z3 is reachable from root Y3 through a required edge,
yet no record for Z3 occurs in the output: the display-name collision between
roots X3 and Y3 stops the traversal before the edges of Y3 are followed, so a
reachable attribute is missing and the claim fails for this schema map. -/
theorem c3_counterexample :
    Reachable colMap [colX, colY] colZ ∧
    (getAllAttributes [colX, colY] colMap).all
      (fun r => r.attr != colZ) = true := by
  constructor
  · exact @Reachable.step colMap [colX, colY] colY colZ
      (Reachable.root (by simp)) (by decide)
  · have h : getAllAttributes [colX, colY] colMap = [⟨colX, "X3lab"⟩] := by
      simp [getAllAttributes, addAttributeAndDependencies, resolveRec_cons,
        resolveRec_nil, seenName, dependencyAttrs, lookupSchema,
        getDataSchemaValidValues, findConditionalAttributes, colMap, colX,
        colY, colZ]
    rw [h]
    decide

/-- C3 amended: when display names identify attributes among the roots and
the map values, every attribute reachable from some root by any chain of the
five dependency edge kinds appears exactly once in the output. -/
theorem c3_amended (roots : List DataSchemaData) (m : SchemaMap)
    (hinj : NamesInjective roots m) (a : DataSchemaData)
    (h : Reachable m roots a) :
    ((getAllAttributes roots m).map (fun r => r.attr)).count a = 1 :=
  getAllAttributes_exactly_once hinj h

def c3wA : DataSchemaData :=
  ⟨"bts:WA", "WA", "WAlab", "", false, "", ["bts:WB"], [], [], []⟩

def c3wB : DataSchemaData :=
  ⟨"bts:WB", "WB", "WBlab", "", false, "", [], [], [], []⟩

def c3wMap : SchemaMap := [("bts:WA", c3wA), ("bts:WB", c3wB)]

theorem c3_amended_witness :
    ((getAllAttributes [c3wA] c3wMap).map (fun r => r.attr)).count c3wB = 1 :=
  c3_amended [c3wA] c3wMap (by unfold NamesInjective; decide) c3wB
    (@Reachable.step c3wMap [c3wA] c3wA c3wB
      (Reachable.root (by simp)) (by decide))

def wesX : DataSchemaData :=
  ⟨"bts:WES1", "Bulk WES Level 1", "WESlab", "", false, "", [], [], [], []⟩

def dnaY : DataSchemaData :=
  ⟨"bts:DNA1", "Bulk DNA Level 1", "DNAlab", "", false, "", [], [], [], []⟩

def overrideMap : SchemaMap := [("bts:WES1", wesX), ("bts:DNA1", dnaY)]

/-- C8: override independence of identity. Deduplication is keyed on the raw
display name only: two distinct records of one output never share a raw name,
and the ATTRIBUTE_OVERRIDES table plays no part in the seen check; on the
concrete pair related by the override table, both attributes survive
resolution as distinct records even though their presentation names coincide,
their raw names being distinct. -/
theorem c8_override_independence :
    (∀ (roots : List DataSchemaData) (m : SchemaMap)
        (r1 r2 : ResolvedAttribute),
      r1 ∈ getAllAttributes roots m → r2 ∈ getAllAttributes roots m →
      r1.attr.attributeName = r2.attr.attributeName → r1 = r2) ∧
    getAllAttributes [wesX, dnaY] overrideMap
      = [⟨wesX, "WESlab"⟩, ⟨dnaY, "DNAlab"⟩] ∧
    (displayAttribute wesX.attributeName
        == displayAttribute dnaY.attributeName) = true ∧
    (wesX.attributeName == dnaY.attributeName) = false := by
  refine ⟨?_, ?_, by decide, by decide⟩
  · intro roots m r1 r2 h1 h2 hname
    exact List.inj_on_of_nodup_map (getAllAttributes_names_nodup roots m)
      h1 h2 hname
  · simp [getAllAttributes, addAttributeAndDependencies, resolveRec_cons,
      resolveRec_nil, seenName, dependencyAttrs, lookupSchema,
      getDataSchemaValidValues, findConditionalAttributes, overrideMap,
      wesX, dnaY]

theorem c8_witness :
    (⟨wesX, "WESlab"⟩ : ResolvedAttribute) = ⟨wesX, "WESlab"⟩ := by
  refine (c8_override_independence).1 [wesX, dnaY] overrideMap _ _ ?_ ?_ rfl
  all_goals
    rw [(c8_override_independence).2.1]
    simp

def shX : DataSchemaData :=
  ⟨"bts:X10", "N10", "X10lab", "", false, "", [], [], [], []⟩

def shY : DataSchemaData :=
  ⟨"bts:Y10", "N10", "Y10lab", "", false, "", ["bts:Z10"], [], [], []⟩

def shZ : DataSchemaData :=
  ⟨"bts:Z10", "Z10", "Z10lab", "", false, "", [], [], [], []⟩

def shMap : SchemaMap :=
  [("bts:X10", shX), ("bts:Y10", shY), ("bts:Z10", shZ)]

/-- C10: name-collision shadowing. The output never carries two records with
the same display name; on the concrete map holding two attributes with
distinct ids but one display name, only the first one discovered appears, the
edges of the second are never followed, and Z10, reachable only through the
second, is omitted from the output. -/
theorem c10_name_shadowing :
    (∀ (roots : List DataSchemaData) (m : SchemaMap),
      (namesOf (getAllAttributes roots m)).Nodup) ∧
    getAllAttributes [shX, shY] shMap = [⟨shX, "X10lab"⟩] ∧
    Reachable shMap [shX, shY] shZ ∧
    (shX.id == shY.id) = false ∧
    (shX.attributeName == shY.attributeName) = true := by
  refine ⟨getAllAttributes_names_nodup, ?_,
    @Reachable.step shMap [shX, shY] shY shZ
      (Reachable.root (by simp)) (by decide), by decide, by decide⟩
  simp [getAllAttributes, addAttributeAndDependencies, resolveRec_cons,
    resolveRec_nil, seenName, dependencyAttrs, lookupSchema,
    getDataSchemaValidValues, findConditionalAttributes, shMap, shX, shY,
    shZ]

/-- The literal shape of addAttributeAndDependencies (DataSchema.tsx lines
347-406): when the display name is already present nothing happens at all;
otherwise the record is inserted and the routine recurses into the resolved
dependency attributes in the fixed source order (dependencyAttrs concatenates
the five loops, and a left fold over a concatenation is the sequential
composition of the loops). Call depth is bounded by explicit fuel so that the
definition is structural; the theorems below show that enough fuel makes it
agree with the worklist formulation, which is therefore a faithful rendering
of the source recursion. -/
def addAttrFuel (m : SchemaMap) :
    Nat → DataSchemaData → String → List ResolvedAttribute →
      List ResolvedAttribute
  | 0, _, _, acc => acc
  | fuel + 1, a, mn, acc =>
    if seenName acc a then acc
    else
      (dependencyAttrs m a).foldl (fun s d => addAttrFuel m fuel d mn s)
        (acc ++ [⟨a, mn⟩])

theorem unseenCount_le_of_subset (m : SchemaMap)
    {p q : List (DataSchemaData × String)} (acc : List ResolvedAttribute)
    (hsub : ∀ e ∈ p, ∃ e' ∈ q, e.1.attributeName = e'.1.attributeName) :
    unseenCount m p acc ≤ unseenCount m q acc := by
  apply Finset.card_le_card
  apply Finset.sdiff_subset_sdiff _ (Finset.Subset.refl _)
  intro x hx
  unfold nameUniverse at hx ⊢
  simp only [Finset.mem_union, List.mem_toFinset, List.mem_map] at hx ⊢
  rcases hx with h | ⟨e, he, hex⟩
  · exact Or.inl h
  · rcases hsub e he with ⟨e', he', heq⟩
    exact Or.inr ⟨e', he', by rw [← heq, hex]⟩

theorem unseenCount_le_of_acc_grow (m : SchemaMap)
    (p : List (DataSchemaData × String)) (acc ext : List ResolvedAttribute) :
    unseenCount m p (acc ++ ext) ≤ unseenCount m p acc := by
  apply Finset.card_le_card
  apply Finset.sdiff_subset_sdiff (Finset.Subset.refl _)
  intro x hx
  rw [List.mem_toFinset] at hx ⊢
  rw [namesOf_append]
  exact List.mem_append_left _ hx

theorem unseenCount_single_le (m : SchemaMap) (a : DataSchemaData)
    (mn : String) (acc : List ResolvedAttribute) :
    unseenCount m [(a, mn)] acc ≤ (attrVals m).length + 1 := by
  refine le_trans (Finset.card_le_card (Finset.sdiff_subset)) ?_
  unfold nameUniverse
  refine le_trans (Finset.card_union_le _ _) ?_
  have h1 : (((attrVals m).map (fun d => d.attributeName)).toFinset).card
      ≤ (attrVals m).length := by
    refine le_trans (List.toFinset_card_le _) ?_
    rw [List.length_map]
  have h2 : ((([(a, mn)] : List (DataSchemaData × String)).map
      (fun e => e.1.attributeName)).toFinset).card ≤ 1 := by
    refine le_trans (List.toFinset_card_le _) ?_
    simp
  omega

theorem addAttrFuel_agrees (m : SchemaMap) : ∀ fuel : Nat,
    (∀ (a : DataSchemaData) (mn : String) (acc : List ResolvedAttribute),
      unseenCount m [(a, mn)] acc < fuel →
      addAttrFuel m fuel a mn acc = resolveRec m [(a, mn)] acc) ∧
    (∀ (ds : List DataSchemaData) (mn : String)
        (acc : List ResolvedAttribute),
      unseenCount m (ds.map (fun d => (d, mn))) acc < fuel →
      ds.foldl (fun s d => addAttrFuel m fuel d mn s) acc =
        resolveRec m (ds.map (fun d => (d, mn))) acc) := by
  intro fuel
  induction fuel with
  | zero => exact ⟨fun a mn acc h => absurd h (by omega),
      fun ds mn acc h => absurd h (by omega)⟩
  | succ f ih =>
    have e1 : ∀ (a : DataSchemaData) (mn : String)
        (acc : List ResolvedAttribute),
        unseenCount m [(a, mn)] acc < f + 1 →
        addAttrFuel m (f + 1) a mn acc = resolveRec m [(a, mn)] acc := by
      intro a mn acc hfuel
      rw [addAttrFuel]
      by_cases hs : seenName acc a = true
      · rw [if_pos hs, resolveRec_cons, if_pos hs, resolveRec_nil]
      · rw [if_neg hs, resolveRec_cons, if_neg hs]
        have hlt := unseenCount_lt_of_unseen m a mn [] acc
          (by simpa using hs)
        rw [List.append_nil] at hlt ⊢
        apply ih.2
        omega
    refine ⟨e1, ?_⟩
    intro ds mn acc h
    induction ds generalizing acc with
    | nil => rw [List.map_nil, List.foldl_nil, resolveRec_nil]
    | cons d ds ihds =>
      rw [List.map_cons, List.foldl_cons]
      have h1 : unseenCount m [(d, mn)] acc < f + 1 := by
        refine lt_of_le_of_lt (unseenCount_le_of_subset m acc ?_) h
        intro e he
        refine ⟨(d, mn), List.mem_cons_self _ _, ?_⟩
        simp only [List.mem_cons, List.not_mem_nil, or_false] at he
        rw [he]
      rw [e1 d mn acc h1]
      rcases resolveRec_prefix m [(d, mn)] acc with ⟨ext, hext⟩
      have h2 : unseenCount m (ds.map (fun d => (d, mn)))
          (resolveRec m [(d, mn)] acc) < f + 1 := by
        rw [hext]
        refine lt_of_le_of_lt (unseenCount_le_of_acc_grow m _ acc ext) ?_
        refine lt_of_le_of_lt (unseenCount_le_of_subset m acc ?_) h
        intro e he
        exact ⟨e, List.mem_cons_of_mem _ he, rfl⟩
      rw [ihds _ h2, ← resolveRec_append]
      rfl

/-- Enough fuel makes the literal source-shaped recursion compute exactly the
worklist visit of one attribute. -/
theorem addAttrFuel_eq_addAttributeAndDependencies (m : SchemaMap)
    (a : DataSchemaData) (mn : String) (acc : List ResolvedAttribute) :
    addAttrFuel m ((attrVals m).length + 2) a mn acc
      = addAttributeAndDependencies m a mn acc := by
  unfold addAttributeAndDependencies
  refine (addAttrFuel_agrees m ((attrVals m).length + 2)).1 a mn acc ?_
  have := unseenCount_single_le m a mn acc
  omega

/-- getAllAttributes in the literal shape of the source: the fold of the
fuel-bounded recursion over the roots equals the worklist formulation. -/
theorem getAllAttributes_eq_fuel (schemaData : List DataSchemaData)
    (m : SchemaMap) :
    schemaData.foldl
        (fun acc a => addAttrFuel m ((attrVals m).length + 2) a a.label acc)
        []
      = getAllAttributes schemaData m := by
  unfold getAllAttributes
  generalize ([] : List ResolvedAttribute) = acc
  induction schemaData generalizing acc with
  | nil => rfl
  | cons a l ih =>
    rw [List.foldl_cons, List.foldl_cons,
      addAttrFuel_eq_addAttributeAndDependencies, ih]
